import Mathlib

/-!
Verification development for the video-sniffer segment download/assembly
pipeline.  The definitions below are a shallow embedding of the Python code in
`src/sniffer_class/gluer.py` (class `VideoSegmentGluer`) and
`src/sniffer_class/captures.py` (`parse_m3u8_file`).

Modelling conventions:
- file contents are `List Nat` (one entry per byte);
- the file system is a partial map `String → Option (List Nat)` from paths to
  contents (`none` = file absent); paths are relative to `save_dir`, so the
  temporary segment files live under `temp_segments/`;
- the network is an oracle: for each URL, each fetch attempt has an outcome
  (`AttemptResult`), covering success with a body, failure before the
  destination file was opened (connection error, non-success HTTP status),
  and failure after part of the body was already streamed to the file;
- Python strings are Lean `String`s; where Python's byte-oriented string
  methods are used (`startswith`, `endswith`, `split`, `rsplit`, `zfill`,
  `int(...)`) we give explicit character-list translations of their
  (ASCII-range) semantics so that everything computes.
-/

/-- File contents: a list of byte values. -/
abbrev Bytes := List Nat

/-- A file system: maps a path to the contents of the file stored there,
`none` when no file exists at that path. -/
abbrev FS := String → Option Bytes

/-- Write (create or overwrite) the file at path `p` with contents `b`. -/
def FS.update (fs : FS) (p : String) (b : Bytes) : FS :=
  fun q => if q = p then some b else fs q

/-- Delete the file at path `p` (missing_ok semantics: fine if absent). -/
def FS.erase (fs : FS) (p : String) : FS :=
  fun q => if q = p then none else fs q

/-! ### Character-level translations of the Python string primitives -/

/-- `startsWithChars s p`: the char list `p` is an initial run of `s`
(translation of Python `str.startswith` for the character sequences involved
here). -/
def startsWithChars : List Char → List Char → Bool
  | _, [] => true
  | [], _ :: _ => false
  | c :: cs, p :: ps => c = p && startsWithChars cs ps

/-- Translation of Python `s.startswith(p)`. -/
def pyStartsWith (s p : String) : Bool := startsWithChars s.data p.data

/-- Translation of Python `s.endswith(p)`. -/
def pyEndsWith (s p : String) : Bool :=
  startsWithChars s.data.reverse p.data.reverse

/-- Translation of Python `text.split("\n")` at character level: split a char
list at every newline; always returns at least one (possibly empty) piece. -/
def splitNl : List Char → List (List Char)
  | [] => [[]]
  | c :: rest =>
    if c = '\n' then [] :: splitNl rest
    else
      match splitNl rest with
      | s :: ss => (c :: s) :: ss
      | [] => [[c]]

/-- Translation of Python `text.split("\n")`. -/
def pySplitLines (s : String) : List String := (splitNl s.data).map String.mk

/-- Characters before the last `'.'` of the reversed list `r` (which is the
input in reverse); returns `none` when `r` contains no dot. -/
def rsplitDotRevAux : List Char → Option (List Char)
  | [] => none
  | c :: rest => if c = '.' then some rest else rsplitDotRevAux rest

/-- Translation of Python `s.rsplit('.', 1)[0]`: everything before the last
dot, or the whole string when it has no dot. -/
def pyRsplitDotHead (s : String) : String :=
  match rsplitDotRevAux s.data.reverse with
  | some stemRev => String.mk stemRev.reverse
  | none => s

/-! ### `parse_m3u8_file` (src/sniffer_class/captures.py, lines 12-16)

The network fetch (`requests.get`) is outside the model: the function below
takes the fetched index-file text directly and performs the pure part:
split into lines, keep the lines that start with `"https://"`, and number the
kept lines consecutively from 0, the index becoming a decimal-string key. -/

def httpsMarker : String := "https://"

/-- Embedding of `parse_m3u8_file` applied to the downloaded text: the result
corresponds to the returned dict `{str(i): href for i, href in
enumerate(parsed_ts_urls)}` as an ordered association list. -/
def parse_m3u8_file (text : String) : List (String × String) :=
  let parsedTsUrls := (pySplitLines text).filter (fun h => pyStartsWith h httpsMarker)
  parsedTsUrls.enum.map (fun p => (toString p.1, p.2))

/-- Modelled from the claim/spec wording, for comparison with
`parse_m3u8_file`: every line beginning with the URL-scheme marker becomes a
segment whose index is its 0-based LINE position in the file. -/
def parse_m3u8_spec_lineIndexed (text : String) : List (String × String) :=
  ((pySplitLines text).enum.filter (fun p => pyStartsWith p.2 httpsMarker)).map
    (fun p => (toString p.1, p.2))

/-! ### Filename fixing in `process` (gluer.py, lines 188-192) -/

/-- Embedding of the suffix correction in `VideoSegmentGluer.process`:
`if not output_filename.endswith(output_format): output_filename =
f"{output_filename.rsplit('.', 1)[0]}.{output_format}"`. -/
def fixOutputFilename (name fmt : String) : String :=
  if pyEndsWith name fmt then name
  else pyRsplitDotHead name ++ "." ++ fmt

/-! ### One fetch attempt (`_download_segment`, gluer.py lines 86-98)

`_download_segment` opens the destination file in `'wb'` mode only after a
response object is obtained, streams the body into it in chunks, and returns
`True`; a `requests.RequestException` makes it return `False` and any other
exception propagates (to be caught by the retry loop).  Observationally an
attempt therefore either
- succeeds, leaving the full body in the file (`ok body`);
- fails before the file was opened (request/status error), leaving the file
  system untouched (`failEarly`); or
- fails mid-stream after writing some chunks, leaving those bytes in the file
  because `'wb'` truncation happened at open time and nothing removes the
  partial file (`failAfterWrite written`). -/
inductive AttemptResult where
  | ok (body : Bytes)
  | failEarly
  | failAfterWrite (written : Bytes)
deriving DecidableEq

/-- Whether the attempt succeeded. -/
def AttemptResult.isOk : AttemptResult → Bool
  | .ok _ => true
  | _ => false

/-- Effect of one `_download_segment` call on the file system, together with
its boolean result (`True` = downloaded). -/
def stepAttempt (r : AttemptResult) (path : String) (fs : FS) : Bool × FS :=
  match r with
  | .ok b => (true, FS.update fs path b)
  | .failEarly => (false, fs)
  | .failAfterWrite w => (false, FS.update fs path w)

/-- Aggregate result of `_download_segment_with_retry`. -/
structure RetryOut where
  success : Bool
  fsOut : FS
  attemptsUsed : Nat

/-- Core of `_download_segment_with_retry` (gluer.py lines 100-115): run the
attempts given by the oracle `o` starting at attempt number `i`, with `fuel`
attempts remaining.  A successful attempt returns immediately; failures
(returned `False` or raised exception, both only logged) continue the loop;
when the budget is exhausted the function returns `False`. -/
def retryAux (o : Nat → AttemptResult) (path : String) :
    Nat → Nat → FS → RetryOut
  | 0, _, fs => ⟨false, fs, 0⟩
  | fuel + 1, i, fs =>
    let s := stepAttempt (o i) path fs
    if s.1 then ⟨true, s.2, 1⟩
    else
      let r := retryAux o path fuel (i + 1) s.2
      ⟨r.success, r.fsOut, r.attemptsUsed + 1⟩

/-- Embedding of `_download_segment_with_retry`: `max_retries + 1` total
attempts (`for attempt in range(self.max_retries + 1)`). -/
def downloadWithRetry (o : Nat → AttemptResult) (maxRetries : Nat)
    (path : String) (fs : FS) : RetryOut :=
  retryAux o path (maxRetries + 1) 0 fs

/-! Pure (file-system-independent) descriptions of a retried job's outcome:
the body of the first successful attempt, the number of attempts consumed,
and the net content the job leaves in its destination file. -/

/-- Body of the first successful attempt among `fuel` attempts starting at
attempt number `i`, if any. -/
def firstOkAux (o : Nat → AttemptResult) : Nat → Nat → Option Bytes
  | 0, _ => none
  | fuel + 1, i =>
    match o i with
    | .ok b => some b
    | _ => firstOkAux o fuel (i + 1)

/-- Body of the first successful attempt of a retried job, if any. -/
def firstOk (o : Nat → AttemptResult) (maxRetries : Nat) : Option Bytes :=
  firstOkAux o (maxRetries + 1) 0

/-- Whether a retried job succeeds at all. -/
def jobSuccess (o : Nat → AttemptResult) (maxRetries : Nat) : Bool :=
  (firstOk o maxRetries).isSome

/-- Number of attempts the retry loop consumes (stops at first success). -/
def jobAttemptsAux (o : Nat → AttemptResult) : Nat → Nat → Nat
  | 0, _ => 0
  | fuel + 1, i =>
    if (o i).isOk then 1 else jobAttemptsAux o fuel (i + 1) + 1

/-- Number of attempts consumed by a retried job. -/
def jobAttempts (o : Nat → AttemptResult) (maxRetries : Nat) : Nat :=
  jobAttemptsAux o (maxRetries + 1) 0

/-- Net content a retried job leaves in its destination file (`none` = the
file is left exactly as it was): the body of the first successful attempt,
or else the bytes written by the last attempt that opened the file. -/
def jobEffectAux (o : Nat → AttemptResult) : Nat → Nat → Option Bytes
  | 0, _ => none
  | fuel + 1, i =>
    match o i with
    | .ok b => some b
    | .failEarly => jobEffectAux o fuel (i + 1)
    | .failAfterWrite w => some ((jobEffectAux o fuel (i + 1)).getD w)

/-- Net content a retried job leaves in its destination file. -/
def jobEffect (o : Nat → AttemptResult) (maxRetries : Nat) : Option Bytes :=
  jobEffectAux o (maxRetries + 1) 0

/-- Apply an optional write to one path of a file system. -/
def applyEffect (e : Option Bytes) (path : String) (fs : FS) : FS :=
  match e with
  | some b => FS.update fs path b
  | none => fs

/-! ### Python `int(str)` (used by `sort_links`, gluer.py lines 82-84)

`int(item[0])` accepts an optional run of whitespace on either side, an
optional sign, and a nonempty digit run in which single underscores may
separate digits; anything else raises `ValueError`.  (We model the ASCII
range; exotic Unicode digits/whitespace do not occur in manifest keys.) -/

/-- ASCII whitespace accepted (and stripped) by Python `int(str)`. -/
def isPySpace (c : Char) : Bool :=
  c = ' ' || c = '\t' || c = '\n' || c = '\r' ||
    c = Char.ofNat 11 || c = Char.ofNat 12

/-- Decimal digit test. -/
def isDigitChar (c : Char) : Bool := '0' ≤ c && c ≤ '9'

/-- Value of a digit sequence, most significant first. -/
def digitsVal (cs : List Char) : Nat :=
  cs.foldl (fun a c => a * 10 + (c.toNat - 48)) 0

/-- After the first digit: each following char is a digit or an underscore
that must be followed by a digit. -/
def pyDigitsRest : List Char → Bool
  | [] => true
  | c :: rest =>
    if c = '_' then
      match rest with
      | [] => false
      | d :: rest2 => isDigitChar d && pyDigitsRest rest2
    else isDigitChar c && pyDigitsRest rest

/-- Digit run (with legal underscores) and its value. -/
def pyUnsignedCore : List Char → Option Nat
  | [] => none
  | c :: rest =>
    if isDigitChar c && pyDigitsRest rest then
      some (digitsVal ((c :: rest).filter (fun d => d ≠ '_')))
    else none

/-- Optional sign, then digit run. -/
def pyIntCore : List Char → Option Int
  | '+' :: rest => (pyUnsignedCore rest).map (fun n => (n : Int))
  | '-' :: rest => (pyUnsignedCore rest).map (fun n => -(n : Int))
  | cs => (pyUnsignedCore cs).map (fun n => (n : Int))

/-- Translation of Python `int(s)`: `some` value, or `none` for the
`ValueError` case. -/
def pyIntParse (s : String) : Option Int :=
  pyIntCore (((s.data.dropWhile isPySpace).reverse.dropWhile isPySpace).reverse)

/-- Key function of `sort_links`' `sorted(..., key=lambda item: int(item[0]))`;
only meaningful when the key parses. -/
def keyInt (k : String) : Int := (pyIntParse k).getD 0

/-! ### Errors surfaced by the pipeline -/

/-- The Python exceptions the pipeline can raise. -/
inductive PErr where
  | valueError
  | runtimeError
  | fileNotFoundError
deriving DecidableEq

/-- A manifest: the `segment_links` dict as an ordered association list of
(segment-number string, url). -/
abbrev Manifest := List (String × String)

/-! ### Python `sorted`

Python's `sorted` is a stable sort.  All stable sorts agree extensionally,
so we model it with a structurally recursive stable insertion sort (which,
unlike `List.mergeSort`, also evaluates inside the kernel). -/

/-- Insert `a` into a sorted list, before any element equivalent to it
(so that the overall sort is stable). -/
def insertLe (le : α → α → Bool) (a : α) : List α → List α
  | [] => [a]
  | b :: bs =>
    if le b a && !le a b then b :: insertLe le a bs else a :: b :: bs

/-- Stable sort modelling Python `sorted(l, key=...)` composed with the
comparison `le`. -/
def pySorted (le : α → α → Bool) : List α → List α
  | [] => []
  | a :: as => insertLe le a (pySorted le as)

/-- Boolean comparison used to model `sorted(self.segment_links.items(),
key=lambda item: int(item[0]))`. -/
def keyIntLe (a b : String × String) : Bool :=
  decide (keyInt a.1 ≤ keyInt b.1)

/-- The sorted item list produced by `sort_links` when every key parses. -/
def sortLinksList (links : Manifest) : Manifest :=
  pySorted keyIntLe links

/-- Embedding of `VideoSegmentGluer.sort_links` (gluer.py lines 82-84):
sort the manifest numerically by key; a key `int()` cannot parse raises
`ValueError`. -/
def sort_links (links : Manifest) : Except PErr Manifest :=
  if links.all (fun j => (pyIntParse j.1).isSome) then
    .ok (sortLinksList links)
  else .error .valueError

/-! ### Segment file names (gluer.py lines 121-126) -/

/-- Character-level translation of Python `str.zfill(w)`: left-pad with
zeros to width `w`, keeping a leading sign in front of the padding. -/
def zfillChars (w : Nat) (cs : List Char) : List Char :=
  match cs with
  | '+' :: rest => '+' :: (List.replicate (w - cs.length) '0' ++ rest)
  | '-' :: rest => '-' :: (List.replicate (w - cs.length) '0' ++ rest)
  | _ => List.replicate (w - cs.length) '0' ++ cs

/-- Translation of Python `s.zfill(w)`. -/
def zfill (w : Nat) (s : String) : String := String.mk (zfillChars w s.data)

/-- Destination path of a segment:
`self.temp_dir / f'segment_{idx.zfill(4)}.ts'`, relative to `save_dir`. -/
def segPath (key : String) : String :=
  "temp_segments/segment_" ++ zfill 4 key ++ ".ts"

/-! ### Lexicographic path order used by `combine_segments`

`combine_segments` iterates over `sorted(segment_files)`; `pathlib` paths in
one directory compare by their path strings, i.e. lexicographically by
character code points.  `lexLe` is that order. -/

/-- Code-point lexicographic order on char lists. -/
def lexLe : List Char → List Char → Bool
  | [], _ => true
  | _ :: _, [] => false
  | a :: as, b :: bs => if a = b then lexLe as bs else decide (a < b)

/-- Code-point lexicographic order on strings (Python `sorted` on the
segment paths). -/
def strLe (s t : String) : Bool := lexLe s.data t.data

/-! ### `combine_segments` (gluer.py lines 150-161)

Opens the output file once in `'wb'` mode (truncating it), then appends the
full contents of every segment file in `sorted(segment_files)` order.
Reading a missing segment file raises `FileNotFoundError`, at which point the
bytes already appended remain in the (now closed) output file. -/

/-- The write loop of `combine_segments`: `acc` is what has been written to
the output file so far (the output file is visible on disk with exactly that
content while the loop runs). -/
def combineLoop (out : String) (fs : FS) :
    List String → Bytes → FS × Option PErr
  | [], acc => (FS.update fs out acc, none)
  | f :: rest, acc =>
    match FS.update fs out acc f with
    | some b => combineLoop out fs rest (acc ++ b)
    | none => (FS.update fs out acc, some .fileNotFoundError)

/-- Embedding of `VideoSegmentGluer.combine_segments`: sort the given paths
lexicographically and concatenate their contents into `out`. -/
def combine_segments (fs : FS) (segmentFiles : List String) (out : String) :
    FS × Option PErr :=
  combineLoop out fs (pySorted strLe segmentFiles) []

/-! ### `cleanup_temp_files` (gluer.py lines 163-169) -/

/-- Embedding of `cleanup_temp_files`: unlink every given file,
`missing_ok=True`. -/
def cleanup_temp_files (fs : FS) (segmentFiles : List String) : FS :=
  segmentFiles.foldl FS.erase fs

/-! ### `download_all_segments` (gluer.py lines 117-148)

The coordinator sorts the manifest, builds one destination filename per
key, and maps `_download_segment_with_retry` over the (url, filename) pairs
in a thread pool.  `executor.map` yields the boolean results in job order
regardless of completion order, and a job's success and attempt count depend
only on its own network oracle, so those parts are pure; only the file
system is touched concurrently.  We therefore model the concurrent execution
by applying the per-job file effects in an arbitrary completion order
`sched` (a permutation of the sorted job list); the canonical entry point
`download_all_segments` uses the job order itself. -/

/-- Apply the per-job file-system effects in the order given. -/
def runJobsFS (net : String → Nat → AttemptResult) (m : Nat) :
    List (String × String) → FS → FS
  | [], fs => fs
  | (k, u) :: rest, fs =>
    runJobsFS net m rest (downloadWithRetry (net u) m (segPath k) fs).fsOut

/-- Result of `download_all_segments`: the successful files in job order,
the per-job boolean outcomes, the file system afterwards, and the total
number of fetch attempts issued. -/
structure DLOut where
  files : List String
  results : List Bool
  fsOut : FS
  attempts : Nat

/-- `download_all_segments` with an explicit completion order `sched` for
the file-system effects. -/
def downloadAllSched (net : String → Nat → AttemptResult) (m : Nat)
    (links : Manifest) (sched : List (String × String)) (fs : FS) :
    Except PErr DLOut :=
  match sort_links links with
  | .error e => .error e
  | .ok jobs =>
    let segmentFiles := jobs.map (fun j => segPath j.1)
    let results := List.zipWith (fun u _f => jobSuccess (net u) m)
      (jobs.map Prod.snd) segmentFiles
    let successfulFiles := (List.zip segmentFiles results).filterMap
      (fun fr => if fr.2 then some fr.1 else none)
    .ok ⟨successfulFiles, results, runJobsFS net m sched fs,
      (jobs.map (fun j => jobAttempts (net j.2) m)).sum⟩

/-- Embedding of `VideoSegmentGluer.download_all_segments`. -/
def download_all_segments (net : String → Nat → AttemptResult) (m : Nat)
    (links : Manifest) (fs : FS) : Except PErr DLOut :=
  downloadAllSched net m links (sortLinksList links) fs

/-! ### `process` (gluer.py lines 171-205) -/

/-- `process` with an explicit completion order for the downloads.  Returns
the file system after the run together with either the final artifact path
or the exception that propagated. -/
def processSched (net : String → Nat → AttemptResult) (m : Nat)
    (links : Manifest) (sched : List (String × String))
    (outputFilename : String) (cleanup : Bool) (outputFormat : String)
    (fs : FS) : FS × Except PErr String :=
  if outputFormat ≠ "ts" ∧ outputFormat ≠ "mp4" then (fs, .error .valueError)
  else
    let name := fixOutputFilename outputFilename outputFormat
    match downloadAllSched net m links sched fs with
    | .error e => (fs, .error e)
    | .ok dl =>
      if dl.files.isEmpty then (dl.fsOut, .error .runtimeError)
      else
        match combine_segments dl.fsOut dl.files name with
        | (fs2, some e) => (fs2, .error e)
        | (fs2, none) =>
          if cleanup then (cleanup_temp_files fs2 dl.files, .ok name)
          else (fs2, .ok name)

/-- Embedding of `VideoSegmentGluer.process`. -/
def process (net : String → Nat → AttemptResult) (m : Nat) (links : Manifest)
    (outputFilename : String) (cleanup : Bool) (outputFormat : String)
    (fs : FS) : FS × Except PErr String :=
  processSched net m links (sortLinksList links) outputFilename cleanup
    outputFormat fs

/-- The jobs that download successfully, in the coordinator's
numeric-key-sorted job order (specification-level description of the
successful subset). -/
def successfulJobs (net : String → Nat → AttemptResult) (m : Nat)
    (links : Manifest) : Manifest :=
  (sortLinksList links).filter (fun j => jobSuccess (net j.2) m)

/-! ## Lemmas -/

theorem FS.update_update (fs : FS) (p : String) (a b : Bytes) :
    FS.update (FS.update fs p a) p b = FS.update fs p b := by
  funext q
  simp only [FS.update]
  split <;> rfl

theorem FS.update_other (fs : FS) (p : String) (b : Bytes) (q : String)
    (h : q ≠ p) : FS.update fs p b q = fs q := by
  simp [FS.update, h]

theorem FS.update_self (fs : FS) (p : String) (b : Bytes) :
    FS.update fs p b p = some b := by
  simp [FS.update]

/-- Full characterization of the retry loop in terms of the pure outcome
functions: result flag, file-system effect, and attempts consumed. -/
theorem retryAux_spec (o : Nat → AttemptResult) (path : String) :
    ∀ (fuel i : Nat) (fs : FS),
      retryAux o path fuel i fs =
        ⟨(firstOkAux o fuel i).isSome,
         applyEffect (jobEffectAux o fuel i) path fs,
         jobAttemptsAux o fuel i⟩
  | 0, i, fs => rfl
  | fuel + 1, i, fs => by
    simp only [retryAux, firstOkAux, jobEffectAux, jobAttemptsAux]
    cases h : o i with
    | ok b =>
      simp [stepAttempt, h, AttemptResult.isOk, applyEffect]
    | failEarly =>
      simp only [stepAttempt, AttemptResult.isOk]
      rw [retryAux_spec o path fuel (i + 1) fs]
      simp
    | failAfterWrite w =>
      simp only [stepAttempt, AttemptResult.isOk]
      rw [retryAux_spec o path fuel (i + 1) (FS.update fs path w)]
      rcases he : jobEffectAux o fuel (i + 1) with _ | b <;>
        simp [applyEffect, he, FS.update_update]

theorem downloadWithRetry_spec (o : Nat → AttemptResult) (m : Nat)
    (path : String) (fs : FS) :
    downloadWithRetry o m path fs =
      ⟨jobSuccess o m, applyEffect (jobEffect o m) path fs, jobAttempts o m⟩ := by
  simp [downloadWithRetry, jobSuccess, firstOk, jobEffect, jobAttempts,
    retryAux_spec]

/-! ### Generic facts about the stable sort `pySorted` -/

theorem insertLe_perm (le : α → α → Bool) (a : α) :
    ∀ l : List α, List.Perm (insertLe le a l) (a :: l)
  | [] => List.Perm.refl _
  | b :: bs => by
    simp only [insertLe]
    split
    · exact ((insertLe_perm le a bs).cons b).trans (List.Perm.swap a b bs)
    · exact List.Perm.refl _

theorem pySorted_perm (le : α → α → Bool) :
    ∀ l : List α, List.Perm (pySorted le l) l
  | [] => List.Perm.refl _
  | a :: as =>
    (insertLe_perm le a (pySorted le as)).trans ((pySorted_perm le as).cons a)

theorem insertLe_pairwise (le : α → α → Bool)
    (htot : ∀ a b, le a b || le b a) (htrans : ∀ a b c, le a b → le b c → le a c)
    (a : α) : ∀ l : List α, l.Pairwise (fun x y => le x y = true) →
      (insertLe le a l).Pairwise (fun x y => le x y = true)
  | [], _ => by simp [insertLe]
  | b :: bs, h => by
    rcases List.pairwise_cons.mp h with ⟨hb, hbs⟩
    simp only [insertLe]
    split
    · rename_i hcond
      simp only [Bool.and_eq_true, Bool.not_eq_eq_eq_not, Bool.not_true] at hcond
      refine List.pairwise_cons.mpr ⟨?_, insertLe_pairwise le htot htrans a bs hbs⟩
      intro y hy
      have := (insertLe_perm le a bs).mem_iff.mp hy
      rcases List.mem_cons.mp this with hya | hyin
      · subst hya; exact hcond.1
      · exact hb y hyin
    · rename_i hcond
      have hab : le a b = true := by
        cases h' : le a b
        · cases h'' : le b a
          · have := htot a b
            simp [h', h''] at this
          · exact absurd (by simp [h', h'']) hcond
        · rfl
      refine List.pairwise_cons.mpr ⟨?_, h⟩
      intro y hy
      rcases List.mem_cons.mp hy with hya | hyin
      · subst hya; exact hab
      · exact htrans a b y hab (hb y hyin)

theorem pySorted_pairwise (le : α → α → Bool)
    (htot : ∀ a b, le a b || le b a)
    (htrans : ∀ a b c, le a b → le b c → le a c) :
    ∀ l : List α, (pySorted le l).Pairwise (fun x y => le x y = true)
  | [] => List.Pairwise.nil
  | a :: as =>
    insertLe_pairwise le htot htrans a (pySorted le as)
      (pySorted_pairwise le htot htrans as)

theorem insertLe_of_le_head (le : α → α → Bool) (a : α) :
    ∀ l : List α, (∀ y ∈ l, le a y = true) → insertLe le a l = a :: l
  | [], _ => rfl
  | b :: bs, h => by
    have hab : le a b = true := h b (List.mem_cons_self b bs)
    simp [insertLe, hab]

theorem pySorted_of_pairwise (le : α → α → Bool) :
    ∀ l : List α, l.Pairwise (fun x y => le x y = true) → pySorted le l = l
  | [], _ => rfl
  | a :: as, h => by
    rcases List.pairwise_cons.mp h with ⟨ha, has⟩
    simp only [pySorted]
    rw [pySorted_of_pairwise le as has]
    exact insertLe_of_le_head le a as ha

/-- Two sorted lists that are permutations of each other are equal, given
antisymmetry of the order on the values involved. -/
theorem pairwise_perm_eq (le : α → α → Bool)
    (hanti : ∀ a b, le a b = true → le b a = true → a = b) :
    ∀ {l₁ l₂ : List α}, List.Perm l₁ l₂ →
      l₁.Pairwise (fun x y => le x y = true) →
      l₂.Pairwise (fun x y => le x y = true) → l₁ = l₂ := by
  intro l₁ l₂ hp h₁ h₂
  exact @List.eq_of_perm_of_sorted _ _ ⟨fun a b ha hb => hanti a b ha hb⟩ _ _ hp h₁ h₂

/-- `pySorted` depends only on the multiset of inputs when the order is
antisymmetric. -/
theorem pySorted_congr_perm (le : α → α → Bool)
    (htot : ∀ a b, le a b || le b a)
    (htrans : ∀ a b c, le a b → le b c → le a c)
    (hanti : ∀ a b, le a b = true → le b a = true → a = b)
    {l₁ l₂ : List α} (hp : List.Perm l₁ l₂) :
    pySorted le l₁ = pySorted le l₂ := by
  refine pairwise_perm_eq le hanti ?_ (pySorted_pairwise le htot htrans l₁)
    (pySorted_pairwise le htot htrans l₂)
  exact (pySorted_perm le l₁).trans (hp.trans (pySorted_perm le l₂).symm)

/-! ### Facts about the download coordinator -/

theorem downloadWithRetry_fs_other (o : Nat → AttemptResult) (m : Nat)
    (p : String) (fs : FS) (q : String) (h : q ≠ p) :
    (downloadWithRetry o m p fs).fsOut q = fs q := by
  rw [downloadWithRetry_spec]
  cases jobEffect o m <;> simp [applyEffect, FS.update_other _ _ _ _ h]

theorem runJobsFS_other (net : String → Nat → AttemptResult) (m : Nat) :
    ∀ (sched : List (String × String)) (fs : FS) (q : String),
      (∀ j ∈ sched, q ≠ segPath j.1) → runJobsFS net m sched fs q = fs q
  | [], _, _, _ => rfl
  | (k, u) :: rest, fs, q, h => by
    simp only [runJobsFS]
    rw [runJobsFS_other net m rest _ q
      (fun j hj => h j (List.mem_cons_of_mem _ hj))]
    exact downloadWithRetry_fs_other _ _ _ _ _ (h (k, u) (List.mem_cons_self _ _))

/-- With pairwise-distinct destination paths, the final content of a job's
destination file is that job's own net effect, independent of where the job
sits in the completion order. -/
theorem runJobsFS_lookup (net : String → Nat → AttemptResult) (m : Nat) :
    ∀ (sched : List (String × String)) (fs : FS) (k u : String),
      (k, u) ∈ sched →
      (sched.map (fun j => segPath j.1)).Nodup →
      runJobsFS net m sched fs (segPath k) =
        applyEffect (jobEffect (net u) m) (segPath k) fs (segPath k)
  | [], _, _, _, hmem, _ => absurd hmem (List.not_mem_nil _)
  | (k', u') :: rest, fs, k, u, hmem, hnd => by
    have hnd2 : segPath k' ∉ rest.map (fun j : String × String => segPath j.1)
        ∧ (rest.map (fun j : String × String => segPath j.1)).Nodup := by
      rw [List.map_cons] at hnd
      exact List.nodup_cons.mp hnd
    obtain ⟨hhead, hrest⟩ := hnd2
    by_cases hpath : segPath k' = segPath k
    · have hku : (k, u) = (k', u') := by
        rcases List.mem_cons.mp hmem with h | h
        · exact h
        · exact absurd
            (hpath ▸ List.mem_map_of_mem (fun j : String × String => segPath j.1) h)
            hhead
      rcases hku with ⟨rfl, rfl⟩
      simp only [runJobsFS]
      rw [runJobsFS_other net m rest _ _ ?_]
      · rw [downloadWithRetry_spec]
      · intro j hj hq
        refine hhead ?_
        rw [hq]
        exact List.mem_map_of_mem (fun j : String × String => segPath j.1) hj
    · have hmem' : (k, u) ∈ rest := by
        rcases List.mem_cons.mp hmem with h | h
        · exact absurd (congrArg (fun j : String × String => segPath j.1) h).symm hpath
        · exact h
      simp only [runJobsFS]
      rw [runJobsFS_lookup net m rest _ k u hmem' hrest]
      have hfs : (downloadWithRetry (net u') m (segPath k') fs).fsOut (segPath k)
          = fs (segPath k) :=
        downloadWithRetry_fs_other _ _ _ _ _ (fun hh => hpath hh.symm)
      cases jobEffect (net u) m <;> simp [applyEffect, hfs, FS.update_self]

theorem zipWith_map_self (g : β → γ → δ) (f1 : α → β) (f2 : α → γ) :
    ∀ l : List α,
      List.zipWith g (l.map f1) (l.map f2) = l.map (fun x => g (f1 x) (f2 x))
  | [] => rfl
  | _ :: xs => by simp [List.zipWith, zipWith_map_self g f1 f2 xs]

theorem zip_filterMap_success (f : α → String) (g : α → Bool) :
    ∀ l : List α,
      (List.zip (l.map f) (l.map g)).filterMap
          (fun fr => if fr.2 then some fr.1 else none)
        = l.filterMap (fun x => if g x then some (f x) else none)
  | [] => rfl
  | x :: xs => by
    simp only [List.map_cons, List.zip_cons_cons, List.filterMap_cons]
    rw [zip_filterMap_success f g xs]

theorem sort_links_ok (links : Manifest)
    (h : links.all (fun j => (pyIntParse j.1).isSome) = true) :
    sort_links links = .ok (sortLinksList links) := by
  simp [sort_links, h]

theorem sort_links_ok_inv {links jobs : Manifest}
    (h : sort_links links = .ok jobs) : jobs = sortLinksList links := by
  by_cases hc : links.all (fun j => (pyIntParse j.1).isSome) = true
  · simpa [sort_links, hc] using h.symm
  · simp [sort_links, hc] at h

/-- Normal form of the coordinator's output once the manifest keys parse. -/
theorem downloadAllSched_ok (net : String → Nat → AttemptResult) (m : Nat)
    (links : Manifest) (sched : List (String × String)) (fs : FS)
    (jobs : Manifest) (h : sort_links links = .ok jobs) :
    downloadAllSched net m links sched fs =
      .ok ⟨jobs.filterMap
            (fun j => if jobSuccess (net j.2) m then some (segPath j.1) else none),
           jobs.map (fun j => jobSuccess (net j.2) m),
           runJobsFS net m sched fs,
           (jobs.map (fun j => jobAttempts (net j.2) m)).sum⟩ := by
  simp only [downloadAllSched, h]
  rw [zipWith_map_self (fun u _f => jobSuccess (net u) m) Prod.snd
    (fun j => segPath j.1) jobs]
  rw [show (jobs.map (fun j => jobSuccess (net j.2) m))
      = jobs.map (fun j => (fun x => jobSuccess (net x.2) m) j) from rfl]
  rw [zip_filterMap_success (fun j => segPath j.1)
    (fun x => jobSuccess (net x.2) m) jobs]

theorem count_true_add_count_false :
    ∀ l : List Bool, l.count true + l.count false = l.length
  | [] => rfl
  | b :: bs => by
    have ih := count_true_add_count_false bs
    cases b <;> simp [List.count_cons] <;> omega

theorem filterMap_if_length (f : α → String) (g : α → Bool) :
    ∀ l : List α,
      (l.filterMap (fun x => if g x then some (f x) else none)).length
        = (l.map g).count true
  | [] => rfl
  | x :: xs => by
    cases hx : g x <;>
      simp [List.filterMap_cons, hx, List.count_cons,
        filterMap_if_length f g xs]

/-! ### Digit strings: `int()` parsing, values, and lexicographic order -/

theorem char_lt_iff_toNat (a b : Char) : a < b ↔ a.toNat < b.toNat := by
  exact_mod_cast Iff.rfl

theorem char_le_iff_toNat (a b : Char) : a ≤ b ↔ a.toNat ≤ b.toNat := by
  exact_mod_cast Iff.rfl

theorem char_toNat_inj (a b : Char) (h : a.toNat = b.toNat) : a = b :=
  Char.ext (UInt32.toNat.inj h)

theorem isDigitChar_range (c : Char) (h : isDigitChar c = true) :
    48 ≤ c.toNat ∧ c.toNat ≤ 57 := by
  rcases Bool.and_eq_true_iff.mp h with ⟨h1, h2⟩
  exact ⟨(char_le_iff_toNat '0' c).mp (of_decide_eq_true h1),
    (char_le_iff_toNat c '9').mp (of_decide_eq_true h2)⟩

theorem isDigitChar_not_space (c : Char) (h : isDigitChar c = true) :
    isPySpace c = false := by
  rcases isDigitChar_range c h with ⟨h1, h2⟩
  cases hs : isPySpace c
  · rfl
  · exfalso
    simp only [isPySpace, Bool.or_eq_true, decide_eq_true_eq] at hs
    rcases hs with ((((h' | h') | h') | h') | h') | h' <;>
      (subst h'; exact absurd h1 (by decide))

theorem isDigitChar_ne (c d : Char) (h : isDigitChar c = true)
    (hd : isDigitChar d = false) : c ≠ d := by
  intro he
  subst he
  rw [h] at hd
  cases hd

theorem digitsVal_foldl_acc :
    ∀ (cs : List Char) (a : Nat),
      cs.foldl (fun x c => x * 10 + (c.toNat - 48)) a
        = a * 10 ^ cs.length + digitsVal cs
  | [], a => by simp [digitsVal]
  | c :: cs, a => by
    have h1 := digitsVal_foldl_acc cs (a * 10 + (c.toNat - 48))
    have h2 := digitsVal_foldl_acc cs (c.toNat - 48)
    simp only [List.foldl_cons, List.length_cons] at *
    rw [h1]
    have : digitsVal (c :: cs) = (c.toNat - 48) * 10 ^ cs.length + digitsVal cs := by
      simp only [digitsVal, List.foldl_cons]
      simpa using h2
    rw [this]
    ring

theorem digitsVal_cons (c : Char) (cs : List Char) :
    digitsVal (c :: cs) = (c.toNat - 48) * 10 ^ cs.length + digitsVal cs := by
  simp only [digitsVal, List.foldl_cons]
  simpa using digitsVal_foldl_acc cs (c.toNat - 48)

theorem digitsVal_lt :
    ∀ cs : List Char, cs.all isDigitChar = true → digitsVal cs < 10 ^ cs.length
  | [] => by intro _; simp [digitsVal]
  | c :: cs => by
    intro h
    rw [List.all_cons] at h
    rcases Bool.and_eq_true_iff.mp h with ⟨hc, hcs⟩
    have ih := digitsVal_lt cs hcs
    rcases isDigitChar_range c hc with ⟨_, h57⟩
    rw [digitsVal_cons, List.length_cons, pow_succ]
    have hd9 : c.toNat - 48 ≤ 9 := by omega
    calc (c.toNat - 48) * 10 ^ cs.length + digitsVal cs
        < (c.toNat - 48) * 10 ^ cs.length + 10 ^ cs.length := by omega
      _ = (c.toNat - 48 + 1) * 10 ^ cs.length := by ring
      _ ≤ 10 * 10 ^ cs.length := by
          exact Nat.mul_le_mul_right _ (by omega)
      _ = 10 ^ cs.length * 10 := by ring

theorem lexLe_refl : ∀ l : List Char, lexLe l l = true
  | [] => rfl
  | c :: cs => by simp [lexLe, lexLe_refl cs]

theorem lexLe_append_left :
    ∀ (p x y : List Char), lexLe (p ++ x) (p ++ y) = lexLe x y
  | [], _, _ => rfl
  | c :: p, x, y => by simp [lexLe, lexLe_append_left p x y]

theorem lexLe_append_of_ne :
    ∀ (x y s t : List Char), x.length = y.length → x ≠ y →
      lexLe (x ++ s) (y ++ t) = lexLe x y
  | [], [], _, _, _, hne => absurd rfl hne
  | a :: as, b :: bs, s, t, hlen, hne => by
    by_cases hab : a = b
    · subst hab
      have hne' : as ≠ bs := fun h => hne (by rw [h])
      simp [lexLe, lexLe_append_of_ne as bs s t (by simpa using hlen) hne']
    · simp [lexLe, hab]

theorem digit_lt_iff (a b : Char) (ha : isDigitChar a = true)
    (hb : isDigitChar b = true) :
    a < b ↔ a.toNat - 48 < b.toNat - 48 := by
  rcases isDigitChar_range a ha with ⟨ha1, _⟩
  rcases isDigitChar_range b hb with ⟨hb1, _⟩
  rw [char_lt_iff_toNat]
  omega

theorem digit_eq_of_val_eq (a b : Char) (ha : isDigitChar a = true)
    (hb : isDigitChar b = true) (h : a.toNat - 48 = b.toNat - 48) : a = b := by
  rcases isDigitChar_range a ha with ⟨ha1, _⟩
  rcases isDigitChar_range b hb with ⟨hb1, _⟩
  exact char_toNat_inj a b (by omega)

theorem digitsVal_lt_of_head_lt (a b : Char) (as bs : List Char)
    (hlen : as.length = bs.length)
    (has : as.all isDigitChar = true)
    (hd : a.toNat - 48 < b.toNat - 48) :
    digitsVal (a :: as) < digitsVal (b :: bs) := by
  rw [digitsVal_cons, digitsVal_cons, hlen]
  have h1 : digitsVal as < 10 ^ bs.length := hlen ▸ digitsVal_lt as has
  calc (a.toNat - 48) * 10 ^ bs.length + digitsVal as
      < (a.toNat - 48) * 10 ^ bs.length + 10 ^ bs.length := by omega
    _ = (a.toNat - 48 + 1) * 10 ^ bs.length := by ring
    _ ≤ (b.toNat - 48) * 10 ^ bs.length := Nat.mul_le_mul_right _ (by omega)
    _ ≤ (b.toNat - 48) * 10 ^ bs.length + digitsVal bs := Nat.le_add_right _ _

/-- On equal-length digit strings, code-point lexicographic order coincides
with numeric order of the values. -/
theorem lexLe_digits_iff :
    ∀ (x y : List Char), x.length = y.length →
      x.all isDigitChar = true → y.all isDigitChar = true →
      (lexLe x y = true ↔ digitsVal x ≤ digitsVal y)
  | [], [], _, _, _ => by simp [lexLe]
  | a :: as, b :: bs, hlen, hx, hy => by
    rw [List.all_cons] at hx hy
    rcases Bool.and_eq_true_iff.mp hx with ⟨hda, has⟩
    rcases Bool.and_eq_true_iff.mp hy with ⟨hdb, hbs⟩
    have hlen' : as.length = bs.length := by simpa using hlen
    by_cases hab : a = b
    · subst hab
      rw [show lexLe (a :: as) (a :: bs) = lexLe as bs by simp [lexLe]]
      rw [lexLe_digits_iff as bs hlen' has hbs]
      rw [digitsVal_cons, digitsVal_cons, hlen']
      omega
    · rw [show lexLe (a :: as) (b :: bs) = decide (a < b) by simp [lexLe, hab]]
      rw [decide_eq_true_eq, digit_lt_iff a b hda hdb]
      constructor
      · intro h
        exact Nat.le_of_lt (digitsVal_lt_of_head_lt a b as bs hlen' has h)
      · intro h
        rcases Nat.lt_trichotomy (a.toNat - 48) (b.toNat - 48) with h' | h' | h'
        · exact h'
        · exact absurd (digit_eq_of_val_eq a b hda hdb h') hab
        · exact absurd h
            (Nat.not_le_of_lt (digitsVal_lt_of_head_lt b a bs as hlen'.symm hbs h'))

theorem zfillChars_digits (cs : List Char) (h : cs.all isDigitChar = true) :
    zfillChars 4 cs = List.replicate (4 - cs.length) '0' ++ cs := by
  match cs with
  | [] => rfl
  | c :: rest =>
    rw [List.all_cons] at h
    rcases Bool.and_eq_true_iff.mp h with ⟨hc, _⟩
    have hplus : c ≠ '+' := isDigitChar_ne c '+' hc (by decide)
    have hminus : c ≠ '-' := isDigitChar_ne c '-' hc (by decide)
    simp only [zfillChars]
    split
    · rename_i heq
      exact absurd (List.cons.inj heq).1 hplus
    · rename_i heq
      exact absurd (List.cons.inj heq).1 hminus
    · rfl

theorem digitsVal_replicate_zero :
    ∀ (n : Nat) (cs : List Char),
      digitsVal (List.replicate n '0' ++ cs) = digitsVal cs
  | 0, cs => rfl
  | n + 1, cs => by
    have : digitsVal ('0' :: (List.replicate n '0' ++ cs))
        = digitsVal (List.replicate n '0' ++ cs) := by
      simp [digitsVal, List.foldl_cons]
    simpa [List.replicate_succ] using this.trans (digitsVal_replicate_zero n cs)

theorem all_digits_replicate_zero (n : Nat) (cs : List Char)
    (h : cs.all isDigitChar = true) :
    (List.replicate n '0' ++ cs).all isDigitChar = true := by
  rw [List.all_append, h, Bool.and_true]
  rw [List.all_eq_true]
  intro c hc
  rw [List.eq_of_mem_replicate hc]
  decide

theorem zfillChars_length (cs : List Char) (h : cs.all isDigitChar = true)
    (hlen : cs.length ≤ 4) : (zfillChars 4 cs).length = 4 := by
  rw [zfillChars_digits cs h, List.length_append, List.length_replicate]
  omega

/-- For keys that are digit strings of at most 4 characters, numeric order
of the key values implies lexicographic order of the segment paths (the
4-wide zero padding aligns the two orders in this range). -/
theorem segPath_le_of_val_le (a b : String)
    (ha : a.data.all isDigitChar = true) (hb : b.data.all isDigitChar = true)
    (hla : a.data.length ≤ 4) (hlb : b.data.length ≤ 4)
    (h : digitsVal a.data ≤ digitsVal b.data) :
    strLe (segPath a) (segPath b) = true := by
  have hdataA : (segPath a).data
      = "temp_segments/segment_".data ++ (zfillChars 4 a.data ++ ".ts".data) := by
    simp [segPath, zfill, List.append_assoc]
  have hdataB : (segPath b).data
      = "temp_segments/segment_".data ++ (zfillChars 4 b.data ++ ".ts".data) := by
    simp [segPath, zfill, List.append_assoc]
  rw [strLe, hdataA, hdataB, lexLe_append_left]
  by_cases heq : zfillChars 4 a.data = zfillChars 4 b.data
  · rw [heq]
    exact lexLe_refl _
  · rw [lexLe_append_of_ne _ _ _ _
      (by rw [zfillChars_length a.data ha hla, zfillChars_length b.data hb hlb]) heq]
    rw [lexLe_digits_iff _ _
      (by rw [zfillChars_length a.data ha hla, zfillChars_length b.data hb hlb])
      (by rw [zfillChars_digits a.data ha]; exact all_digits_replicate_zero _ _ ha)
      (by rw [zfillChars_digits b.data hb]; exact all_digits_replicate_zero _ _ hb)]
    rw [zfillChars_digits a.data ha, zfillChars_digits b.data hb,
      digitsVal_replicate_zero, digitsVal_replicate_zero]
    exact h

/-- For digit-string keys of at most 4 characters, equal segment paths force
equal numeric key values. -/
theorem segPath_inj_val (a b : String)
    (ha : a.data.all isDigitChar = true) (hb : b.data.all isDigitChar = true)
    (h : segPath a = segPath b) : digitsVal a.data = digitsVal b.data := by
  have hdata := congrArg String.data h
  have hdataA : (segPath a).data
      = "temp_segments/segment_".data ++ (zfillChars 4 a.data ++ ".ts".data) := by
    simp [segPath, zfill, List.append_assoc]
  have hdataB : (segPath b).data
      = "temp_segments/segment_".data ++ (zfillChars 4 b.data ++ ".ts".data) := by
    simp [segPath, zfill, List.append_assoc]
  rw [hdataA, hdataB] at hdata
  have h1 : zfillChars 4 a.data ++ ".ts".data = zfillChars 4 b.data ++ ".ts".data :=
    List.append_inj_right hdata rfl
  have h2 : zfillChars 4 a.data = zfillChars 4 b.data :=
    (List.append_inj' h1 rfl).1
  have := congrArg digitsVal
    ((zfillChars_digits a.data ha).symm.trans (h2.trans (zfillChars_digits b.data hb)))
  rwa [digitsVal_replicate_zero, digitsVal_replicate_zero] at this

/-! ### `int()` on plain digit strings -/

theorem dropWhile_space_digits (cs : List Char)
    (h : cs.all isDigitChar = true) : cs.dropWhile isPySpace = cs := by
  match cs with
  | [] => rfl
  | c :: rest =>
    rw [List.all_cons] at h
    rcases Bool.and_eq_true_iff.mp h with ⟨hc, _⟩
    rw [List.dropWhile_cons, isDigitChar_not_space c hc]
    simp

theorem pyDigitsRest_digits :
    ∀ cs : List Char, cs.all isDigitChar = true → pyDigitsRest cs = true
  | [] => fun _ => rfl
  | c :: rest => by
    intro h
    rw [List.all_cons] at h
    rcases Bool.and_eq_true_iff.mp h with ⟨hc, hrest⟩
    have hne : c ≠ '_' := isDigitChar_ne c '_' hc (by decide)
    unfold pyDigitsRest
    rw [if_neg hne, hc, pyDigitsRest_digits rest hrest]
    rfl

theorem filter_underscore_digits (cs : List Char)
    (h : cs.all isDigitChar = true) :
    cs.filter (fun d => d ≠ '_') = cs := by
  rw [List.filter_eq_self]
  intro a hmem
  have ha : isDigitChar a = true := by
    rw [List.all_eq_true] at h
    exact h a hmem
  simpa using isDigitChar_ne a '_' ha (by decide)

/-- Python `int()` on a nonempty plain digit string returns its decimal
value. -/
theorem pyIntParse_digits (s : String) (hne : s.data ≠ [])
    (h : s.data.all isDigitChar = true) :
    pyIntParse s = some ((digitsVal s.data : Nat) : Int) := by
  have hrevall : s.data.reverse.all isDigitChar = true := by
    rw [List.all_eq_true] at h ⊢
    intro c hc
    exact h c (List.mem_reverse.mp hc)
  rw [pyIntParse, dropWhile_space_digits s.data h,
    dropWhile_space_digits s.data.reverse hrevall, List.reverse_reverse]
  match hs : s.data with
  | [] => exact absurd hs hne
  | c :: rest =>
    rw [hs] at h
    rw [List.all_cons] at h
    rcases Bool.and_eq_true_iff.mp h with ⟨hc, hrest⟩
    have hplus : c ≠ '+' := isDigitChar_ne c '+' hc (by decide)
    have hminus : c ≠ '-' := isDigitChar_ne c '-' hc (by decide)
    have hcore : pyUnsignedCore (c :: rest) = some (digitsVal (c :: rest)) := by
      rw [pyUnsignedCore]
      rw [hc, pyDigitsRest_digits rest hrest]
      rw [filter_underscore_digits (c :: rest) (by rw [List.all_cons, hc, hrest]; rfl)]
      rfl
    simp only [pyIntCore]
    split
    · rename_i heq
      exact absurd (List.cons.inj heq).1 hplus
    · rename_i heq
      exact absurd (List.cons.inj heq).1 hminus
    · rw [hcore]
      rfl

theorem keyInt_digits (s : String) (hne : s.data ≠ [])
    (h : s.data.all isDigitChar = true) :
    keyInt s = ((digitsVal s.data : Nat) : Int) := by
  rw [keyInt, pyIntParse_digits s hne h]
  rfl

/-! ### The assembler write loop -/

/-- When every listed file exists and none of them is the output path, the
write loop appends all their contents, in list order, to what has been
written so far. -/
theorem combineLoop_all_present (out : String) (fs : FS) :
    ∀ (files : List String) (acc : Bytes),
      (∀ f ∈ files, f ≠ out ∧ (fs f).isSome) →
      combineLoop out fs files acc =
        (FS.update fs out
          (acc ++ (files.map (fun f => (fs f).getD [])).flatten), none)
  | [], acc, _ => by simp [combineLoop]
  | f :: rest, acc, h => by
    rcases h f (List.mem_cons_self f rest) with ⟨hne, hsome⟩
    rcases Option.isSome_iff_exists.mp hsome with ⟨b, hb⟩
    simp only [combineLoop]
    rw [show FS.update fs out acc f = fs f from FS.update_other fs out acc f hne, hb]
    dsimp only
    rw [combineLoop_all_present out fs rest (acc ++ b)
      (fun g hg => h g (List.mem_cons_of_mem f hg))]
    simp [hb]

/-- Cleanup never touches a path outside the list it is given. -/
theorem cleanup_temp_files_other :
    ∀ (files : List String) (fs : FS) (q : String), q ∉ files →
      cleanup_temp_files fs files q = fs q
  | [], _, _, _ => rfl
  | f :: rest, fs, q, h => by
    have hq : q ≠ f := fun he => h (he ▸ List.mem_cons_self f rest)
    rw [cleanup_temp_files, List.foldl_cons]
    rw [show List.foldl FS.erase (FS.erase fs f) rest
      = cleanup_temp_files (FS.erase fs f) rest from rfl]
    rw [cleanup_temp_files_other rest (FS.erase fs f) q
      (fun hm => h (List.mem_cons_of_mem f hm))]
    simp [FS.erase, hq]

/-! ### Enumeration helpers for the index-file parser -/

theorem enum_pair_snd (l : List α) (f : Nat → β) :
    (l.enum.map (fun p => (f p.1, p.2))).map Prod.snd = l := by
  rw [List.map_map]
  have : (Prod.snd ∘ fun p : Nat × α => (f p.1, p.2)) = Prod.snd := by
    funext p
    rfl
  rw [this, List.enum_eq_enumFrom, List.enumFrom_map_snd]

theorem enum_pair_fst (l : List α) (f : Nat → β) :
    (l.enum.map (fun p => (f p.1, p.2))).map Prod.fst
      = (List.range l.length).map f := by
  rw [List.map_map]
  have h1 : (Prod.fst ∘ fun p : Nat × α => (f p.1, p.2))
      = f ∘ Prod.fst := by
    funext p
    rfl
  rw [h1, ← List.map_map, List.enum_eq_enumFrom, List.enumFrom_map_fst,
    ← List.range_eq_range']

/-! ### Decomposition of `rsplit('.', 1)` -/

theorem rsplitDotRevAux_decomp :
    ∀ cs : List Char, '.' ∈ cs →
      ∃ extRev stemRev : List Char,
        cs = extRev ++ '.' :: stemRev ∧ '.' ∉ extRev ∧
        rsplitDotRevAux cs = some stemRev
  | [], h => absurd h (List.not_mem_nil _)
  | c :: rest, h => by
    by_cases hc : c = '.'
    · subst hc
      exact ⟨[], rest, rfl, List.not_mem_nil _, by simp [rsplitDotRevAux]⟩
    · have hrest : '.' ∈ rest := by
        rcases List.mem_cons.mp h with h' | h'
        · exact absurd h'.symm hc
        · exact h'
      rcases rsplitDotRevAux_decomp rest hrest with ⟨extRev, stemRev, he, hnm, hr⟩
      refine ⟨c :: extRev, stemRev, by rw [List.cons_append, ← he], ?_, ?_⟩
      · intro hmem
        rcases List.mem_cons.mp hmem with h' | h'
        · exact hc h'.symm
        · exact hnm h'
      · rw [rsplitDotRevAux, if_neg hc]
        exact hr

theorem rsplitDotRevAux_none (cs : List Char) (h : '.' ∉ cs) :
    rsplitDotRevAux cs = none := by
  induction cs with
  | nil => rfl
  | cons c rest ih =>
    have hc : c ≠ '.' := fun he => h (he ▸ List.mem_cons_self c rest)
    rw [rsplitDotRevAux, if_neg hc]
    exact ih (fun hm => h (List.mem_cons_of_mem c hm))

/-! ### Attempt counting for the retry loop -/

theorem jobAttemptsAux_le (o : Nat → AttemptResult) :
    ∀ (fuel i : Nat), jobAttemptsAux o fuel i ≤ fuel
  | 0, _ => Nat.le_refl 0
  | fuel + 1, i => by
    rw [jobAttemptsAux]
    split
    · omega
    · have := jobAttemptsAux_le o fuel (i + 1)
      omega

theorem firstOkAux_of_isOk_false (o : Nat → AttemptResult) (fuel i : Nat)
    (h : (o i).isOk = false) :
    firstOkAux o (fuel + 1) i = firstOkAux o fuel (i + 1) := by
  rw [firstOkAux]
  cases ho : o i with
  | ok b => rw [ho] at h; cases h
  | failEarly => rfl
  | failAfterWrite w => rfl

theorem retry_first_ok (o : Nat → AttemptResult) :
    ∀ (fuel i j : Nat), j < fuel →
      (∀ t, t < j → (o (i + t)).isOk = false) → (o (i + j)).isOk = true →
      jobAttemptsAux o fuel i = j + 1 ∧ (firstOkAux o fuel i).isSome = true
  | 0, _, j, hj, _, _ => absurd hj (Nat.not_lt_zero j)
  | fuel + 1, i, 0, _, _, hok => by
    rw [Nat.add_zero] at hok
    constructor
    · rw [jobAttemptsAux, if_pos hok]
    · rw [firstOkAux]
      cases ho : o i with
      | ok b => rfl
      | failEarly => rw [ho] at hok; cases hok
      | failAfterWrite w => rw [ho] at hok; cases hok
  | fuel + 1, i, j + 1, hj, hfail, hok => by
    have h0 : (o i).isOk = false := by
      have := hfail 0 (Nat.succ_pos j)
      rwa [Nat.add_zero] at this
    have hfail' : ∀ t, t < j → (o (i + 1 + t)).isOk = false := by
      intro t ht
      have : i + 1 + t = i + (t + 1) := by omega
      rw [this]
      exact hfail (t + 1) (by omega)
    have hok' : (o (i + 1 + j)).isOk = true := by
      have : i + 1 + j = i + (j + 1) := by omega
      rw [this]
      exact hok
    have ih := retry_first_ok o fuel (i + 1) j (by omega) hfail' hok'
    constructor
    · rw [jobAttemptsAux, if_neg (by rw [h0]; exact Bool.false_ne_true), ih.1]
    · rw [firstOkAux_of_isOk_false o fuel i h0]
      exact ih.2

theorem retry_all_fail (o : Nat → AttemptResult) :
    ∀ (fuel i : Nat), (∀ t, t < fuel → (o (i + t)).isOk = false) →
      jobAttemptsAux o fuel i = fuel ∧ firstOkAux o fuel i = none
  | 0, _, _ => ⟨rfl, rfl⟩
  | fuel + 1, i, h => by
    have h0 : (o i).isOk = false := by
      have := h 0 (Nat.succ_pos fuel)
      rwa [Nat.add_zero] at this
    have h' : ∀ t, t < fuel → (o (i + 1 + t)).isOk = false := by
      intro t ht
      have : i + 1 + t = i + (t + 1) := by omega
      rw [this]
      exact h (t + 1) (by omega)
    have ih := retry_all_fail o fuel (i + 1) h'
    constructor
    · rw [jobAttemptsAux, if_neg (by rw [h0]; exact Bool.false_ne_true), ih.1]
    · rw [firstOkAux_of_isOk_false o fuel i h0]
      exact ih.2

theorem jobEffectAux_of_success (o : Nat → AttemptResult) :
    ∀ (fuel i : Nat), (firstOkAux o fuel i).isSome = true →
      jobEffectAux o fuel i = firstOkAux o fuel i
  | 0, _, h => by cases h
  | fuel + 1, i, h => by
    rw [firstOkAux] at h ⊢
    rw [jobEffectAux]
    cases ho : o i with
    | ok b => rfl
    | failEarly =>
      rw [ho] at h
      dsimp only at h
      exact jobEffectAux_of_success o fuel (i + 1) h
    | failAfterWrite w =>
      rw [ho] at h
      dsimp only at h
      rw [jobEffectAux_of_success o fuel (i + 1) h]
      rcases Option.isSome_iff_exists.mp h with ⟨b, hb⟩
      rw [hb]
      rfl

/-! ## Claims -/

/-- C4 (counterexample): in the file consisting of the line `#x` followed by
the line `https://a`, the single https-line sits at 0-based LINE position 1,
but `parse_m3u8_file` keys it `"0"`: the index is the position among the
matching lines, not the line position in the file, so the claim as stated is
false. -/
theorem claim_C4_counterexample :
    parse_m3u8_file "#x\nhttps://a" = [("0", "https://a")]
    ∧ parse_m3u8_spec_lineIndexed "#x\nhttps://a" = [("1", "https://a")]
    ∧ parse_m3u8_file "#x\nhttps://a"
        ≠ parse_m3u8_spec_lineIndexed "#x\nhttps://a" := by
  refine ⟨by decide, by decide, by decide⟩

/-- C4 (amended): `parse_m3u8_file` treats exactly the lines beginning with
`"https://"` as segments, in file order, and assigns each one an index equal
to its 0-based position in the sequence of MATCHING lines (which equals its
line position only when no non-matching line comes before it): the values
are precisely the matching lines and the keys are `"0", "1", ...` in
order. -/
theorem claim_C4_https_line_parsing (text : String) :
    (parse_m3u8_file text).map Prod.snd
      = (pySplitLines text).filter (fun h => pyStartsWith h httpsMarker)
    ∧ (parse_m3u8_file text).map Prod.fst
      = (List.range ((pySplitLines text).filter
          (fun h => pyStartsWith h httpsMarker)).length).map toString := by
  constructor
  · exact enum_pair_snd _ _
  · exact enum_pair_fst _ _

/-- C10 (confirmed): the output-filename correction is a pure string-suffix
test: if the filename ends with the characters of the requested format it is
used unchanged (even a dotless name such as `"results"` with format `"ts"`);
otherwise the portion after the last dot (or the whole name, if it has no
dot) is replaced/extended with `"." ++ format`. -/
theorem claim_C10_filename_suffix_fix (name fmt : String) :
    (pyEndsWith name fmt = true → fixOutputFilename name fmt = name)
    ∧ (pyEndsWith name fmt = false → '.' ∉ name.data →
        fixOutputFilename name fmt = name ++ "." ++ fmt)
    ∧ (pyEndsWith name fmt = false → '.' ∈ name.data →
        ∃ stem ext : String, name = stem ++ "." ++ ext ∧ '.' ∉ ext.data ∧
          fixOutputFilename name fmt = stem ++ "." ++ fmt) := by
  refine ⟨fun h => by simp [fixOutputFilename, h], fun h hdot => ?_, fun h hdot => ?_⟩
  · have hnone : rsplitDotRevAux name.data.reverse = none :=
      rsplitDotRevAux_none _ (fun hm => hdot (List.mem_reverse.mp hm))
    rw [fixOutputFilename, if_neg (by simp [h]), pyRsplitDotHead, hnone]
  · have hdotrev : '.' ∈ name.data.reverse := List.mem_reverse.mpr hdot
    rcases rsplitDotRevAux_decomp name.data.reverse hdotrev with
      ⟨extRev, stemRev, hdecomp, hnm, haux⟩
    have hdata : name.data = stemRev.reverse ++ '.' :: extRev.reverse := by
      have := congrArg List.reverse hdecomp
      rw [List.reverse_reverse] at this
      rw [this, List.reverse_append, List.reverse_cons, List.append_assoc]
      simp
    refine ⟨String.mk stemRev.reverse, String.mk extRev.reverse, ?_, ?_, ?_⟩
    · apply String.ext
      rw [hdata]
      rw [show (String.mk stemRev.reverse ++ "." ++ String.mk extRev.reverse).data
        = stemRev.reverse ++ ".".data ++ extRev.reverse by
          rw [String.data_append, String.data_append]]
      simp
    · intro hm
      exact hnm (List.mem_reverse.mp hm)
    · rw [fixOutputFilename, if_neg (by simp [h]), pyRsplitDotHead, haux]

/-- C10 (witness): concrete instances of the three branches, including the
claim's own example, the dotless filename `"results"` with format `"ts"`
being used completely unchanged. -/
theorem claim_C10_witness :
    fixOutputFilename "results" "ts" = "results"
    ∧ fixOutputFilename "video" "mp4" = "video" ++ "." ++ "mp4"
    ∧ (∃ stem ext : String, "a.b.c" = stem ++ "." ++ ext ∧ '.' ∉ ext.data ∧
        fixOutputFilename "a.b.c" "mp4" = stem ++ "." ++ "mp4") :=
  ⟨(claim_C10_filename_suffix_fix "results" "ts").1 (by decide),
   (claim_C10_filename_suffix_fix "video" "mp4").2.1 (by decide) (by decide),
   (claim_C10_filename_suffix_fix "a.b.c" "mp4").2.2 (by decide) (by decide)⟩

/-- C5 (confirmed): the retry wrapper performs at most `maxRetries + 1`
fetch attempts; the first successful attempt ends the loop immediately with
a success result; if every attempt within the budget fails, the job is
reported failed (`success = false`, a plain return value — the model is a
total function, no exception escapes) after exactly `maxRetries + 1`
attempts. -/
theorem claim_C5_retry_budget (o : Nat → AttemptResult) (m : Nat)
    (p : String) (fs : FS) :
    (downloadWithRetry o m p fs).attemptsUsed ≤ m + 1
    ∧ (∀ j, j ≤ m → (∀ i, i < j → (o i).isOk = false) → (o j).isOk = true →
        (downloadWithRetry o m p fs).success = true
          ∧ (downloadWithRetry o m p fs).attemptsUsed = j + 1)
    ∧ ((∀ i, i ≤ m → (o i).isOk = false) →
        (downloadWithRetry o m p fs).success = false
          ∧ (downloadWithRetry o m p fs).attemptsUsed = m + 1) := by
  rw [downloadWithRetry_spec]
  refine ⟨jobAttemptsAux_le o (m + 1) 0, fun j hj hfail hok => ?_, fun hall => ?_⟩
  · have h := retry_first_ok o (m + 1) 0 j (by omega)
      (fun t ht => by rw [Nat.zero_add]; exact hfail t ht)
      (by rw [Nat.zero_add]; exact hok)
    exact ⟨by rw [jobSuccess, firstOk]; exact h.2, h.1⟩
  · have h := retry_all_fail o (m + 1) 0
      (fun t ht => by rw [Nat.zero_add]; exact hall t (by omega))
    refine ⟨?_, h.1⟩
    rw [jobSuccess, firstOk, h.2]
    rfl

/-- C5 (witness): with every attempt failing and `maxRetries = 2`, the job
is reported failed after exactly 3 attempts. -/
theorem claim_C5_witness :
    (downloadWithRetry (fun _ => AttemptResult.failEarly) 2 "u"
        (fun _ => none)).success = false
    ∧ (downloadWithRetry (fun _ => AttemptResult.failEarly) 2 "u"
        (fun _ => none)).attemptsUsed = 2 + 1 :=
  (claim_C5_retry_budget (fun _ => AttemptResult.failEarly) 2 "u"
    (fun _ => none)).2.2 (fun _ _ => rfl)

/-- C3 (counterexample): a transport failure after one chunk (body byte `7`)
was streamed leaves the destination file PRESENT with exactly that partial
content; with an intended full body `[7, 8]` the remnant is a strict
truncation, so "the destination file either does not exist or is complete"
is false on the code. -/
theorem claim_C3_counterexample :
    (downloadWithRetry (fun _ => AttemptResult.failAfterWrite [7]) 0
        (segPath "0") (fun _ => none)).success = false
    ∧ (downloadWithRetry (fun _ => AttemptResult.failAfterWrite [7]) 0
        (segPath "0") (fun _ => none)).fsOut (segPath "0") = some [7]
    ∧ some [7] ≠ (none : Option Bytes)
    ∧ ([7] : Bytes) ≠ [7, 8] := by
  refine ⟨rfl, rfl, by decide, by decide⟩

/-- C3 (amended): a failed job MAY leave a partially-written file: after the
retry loop the destination holds exactly the bytes written by the last
attempt that opened the file (`jobEffect`), or is untouched when no attempt
opened it; no other path is affected; and because each attempt reopens the
file with truncation, a successful job always ends with the complete body of
its first successful attempt. -/
theorem claim_C3_failed_leaves_last_write (o : Nat → AttemptResult) (m : Nat)
    (p : String) (fs : FS) :
    (downloadWithRetry o m p fs).fsOut = applyEffect (jobEffect o m) p fs
    ∧ (∀ q, q ≠ p → (downloadWithRetry o m p fs).fsOut q = fs q)
    ∧ (jobSuccess o m = true → jobEffect o m = firstOk o m) := by
  refine ⟨by rw [downloadWithRetry_spec], fun q hq => downloadWithRetry_fs_other o m p fs q hq,
    fun hs => ?_⟩
  rw [jobEffect, firstOk]
  exact jobEffectAux_of_success o (m + 1) 0 hs

/-- C3 (amended, witness): a successful single-attempt job ends with the
complete body. -/
theorem claim_C3_witness :
    jobEffect (fun _ => AttemptResult.ok [1]) 0
      = firstOk (fun _ => AttemptResult.ok [1]) 0 :=
  (claim_C3_failed_leaves_last_write (fun _ => AttemptResult.ok [1]) 0 "u"
    (fun _ => none)).2.2 rfl

/-- C6 (counterexample): `combine_segments` called directly with an empty
path list does NOT fail hard: it reports no error and silently writes a
zero-byte output file. -/
theorem claim_C6_counterexample :
    (combine_segments (fun _ => none) [] "combined_video.ts").2 = none
    ∧ (combine_segments (fun _ => none) [] "combined_video.ts").1
        "combined_video.ts" = some [] :=
  ⟨rfl, rfl⟩

/-- C6 (amended): the empty-input hard failure is enforced by the caller
`process`, which raises `RuntimeError` when zero segments succeeded and
never invokes `combine_segments`; `combine_segments` itself, given an empty
list, succeeds and writes an empty output file. -/
theorem claim_C6_empty_guard_in_process (net : String → Nat → AttemptResult)
    (m : Nat) (links : Manifest) (sched : List (String × String))
    (name : String) (clean : Bool) (fmt : String) (fs : FS) (dl : DLOut)
    (hfmt : fmt = "ts" ∨ fmt = "mp4")
    (hdl : downloadAllSched net m links sched fs = .ok dl)
    (hempty : dl.files = []) :
    processSched net m links sched name clean fmt fs
      = (dl.fsOut, .error .runtimeError)
    ∧ ∀ (fs2 : FS) (out : String),
        combine_segments fs2 [] out = (FS.update fs2 out [], none) := by
  constructor
  · have hcond : ¬ (fmt ≠ "ts" ∧ fmt ≠ "mp4") := by
      rcases hfmt with h | h <;> simp [h]
    rw [processSched, if_neg hcond, hdl]
    dsimp only
    rw [show dl.files.isEmpty = true by rw [hempty]; rfl]
    rfl
  · intro fs2 out
    rfl

/-- C6 (witness): with an empty manifest the coordinator returns no
successful files and `process` ends with `RuntimeError`. -/
theorem claim_C6_witness :
    processSched (fun _ _ => AttemptResult.failEarly) 0 [] [] "v.ts" true "ts"
        (fun _ => none)
      = ((fun _ => none : FS), .error .runtimeError) :=
  (claim_C6_empty_guard_in_process (fun _ _ => AttemptResult.failEarly) 0 [] []
    "v.ts" true "ts" (fun _ => none) ⟨[], [], fun _ => none, 0⟩
    (Or.inl rfl) rfl rfl).1

/-- C8 (confirmed): the coordinator yields exactly one boolean outcome per
segment job — the result list has one entry per manifest entry — and the
success count plus the failure count equals the total count; moreover the
successful-file list has exactly one path per `true` outcome. -/
theorem claim_C8_one_result_per_job (net : String → Nat → AttemptResult)
    (m : Nat) (links : Manifest) (fs : FS) (dl : DLOut)
    (h : download_all_segments net m links fs = .ok dl) :
    dl.results.length = links.length
    ∧ dl.results.count true + dl.results.count false = dl.results.length
    ∧ dl.files.length = dl.results.count true := by
  rw [download_all_segments] at h
  cases hs : sort_links links with
  | error e =>
    rw [downloadAllSched, hs] at h
    cases h
  | ok jobs =>
    rw [downloadAllSched_ok net m links (sortLinksList links) fs jobs hs] at h
    have hdl := (Except.ok.inj h).symm
    subst hdl
    have hjobs : jobs = sortLinksList links := sort_links_ok_inv hs
    refine ⟨?_, count_true_add_count_false _, ?_⟩
    · rw [List.length_map, hjobs]
      exact (pySorted_perm keyIntLe links).length_eq
    · exact filterMap_if_length (fun j => segPath j.1)
        (fun j => jobSuccess (net j.2) m) jobs

/-- C8 (witness): a one-job manifest yields exactly one result. -/
theorem claim_C8_witness :
    ([true] : List Bool).length = ([("0", "u")] : Manifest).length
    ∧ ([true] : List Bool).count true + ([true] : List Bool).count false
        = ([true] : List Bool).length
    ∧ [segPath "0"].length = ([true] : List Bool).count true :=
  claim_C8_one_result_per_job (fun _ _ => AttemptResult.ok [5]) 0 [("0", "u")]
    (fun _ => none)
    ⟨[segPath "0"], [true],
     runJobsFS (fun _ _ => AttemptResult.ok [5]) 0
       (sortLinksList [("0", "u")]) (fun _ => none), 1⟩
    rfl

/-- C9 (confirmed): a manifest key that Python `int()` cannot parse makes
`sort_links` — and with it `download_all_segments` and `process` — raise
`ValueError` before any segment is fetched ("decimal integer string" is
formalised as a string accepted by `int()`, i.e. `pyIntParse` succeeds; the
failing run leaves the file system untouched). -/
theorem claim_C9_nonnumeric_key_valueerror (net : String → Nat → AttemptResult)
    (m : Nat) (links : Manifest) (fs : FS) (name : String) (clean : Bool)
    (fmt : String) (k : String)
    (hk : k ∈ links.map Prod.fst) (hbad : pyIntParse k = none) :
    sort_links links = .error .valueError
    ∧ download_all_segments net m links fs = .error .valueError
    ∧ process net m links name clean fmt fs = (fs, .error .valueError) := by
  have hall : links.all (fun j => (pyIntParse j.1).isSome) = false := by
    cases hc : links.all (fun j => (pyIntParse j.1).isSome)
    · rfl
    · exfalso
      rcases List.mem_map.mp hk with ⟨j, hj, hjk⟩
      have := List.all_eq_true.mp hc j hj
      rw [hjk, hbad] at this
      cases this
  have hsort : sort_links links = .error .valueError := by
    rw [sort_links, hall]
    rfl
  have hdl : download_all_segments net m links fs = .error .valueError := by
    rw [download_all_segments, downloadAllSched, hsort]
  refine ⟨hsort, hdl, ?_⟩
  by_cases hcond : fmt ≠ "ts" ∧ fmt ≠ "mp4"
  · rw [process, processSched, if_pos hcond]
  · rw [process, processSched, if_neg hcond]
    dsimp only
    rw [show downloadAllSched net m links (sortLinksList links) fs
      = .error .valueError from hdl]

/-- C9 (witness): the key `"abc"` raises `ValueError` up through
`process`. -/
theorem claim_C9_witness :
    sort_links [("abc", "u")] = .error .valueError
    ∧ download_all_segments (fun _ _ => AttemptResult.ok [1]) 0 [("abc", "u")]
        (fun _ => none) = .error .valueError
    ∧ process (fun _ _ => AttemptResult.ok [1]) 0 [("abc", "u")] "v.ts" true "ts"
        (fun _ => none) = ((fun _ => none : FS), .error .valueError) :=
  claim_C9_nonnumeric_key_valueerror (fun _ _ => AttemptResult.ok [1]) 0
    [("abc", "u")] (fun _ => none) "v.ts" true "ts" "abc" (by decide) (by decide)

/-- C7 (confirmed): in every `process` run in which zero segments download
successfully, an error is raised to the caller, and no output artifact is
created: every path other than the per-job temporary segment paths — in
particular the output path — is exactly as before the run.  An empty
manifest fails this way before issuing any network call: the coordinator
returns zero results and an attempt count of zero. -/
theorem claim_C7_zero_success_fatal (net : String → Nat → AttemptResult)
    (m : Nat) (links : Manifest) (name : String) (clean : Bool) (fmt : String)
    (fs : FS) (hfail : ∀ j ∈ links, jobSuccess (net j.2) m = false) :
    (∃ e, (process net m links name clean fmt fs).2 = Except.error e)
    ∧ (∀ q, (∀ j ∈ links, q ≠ segPath j.1) →
        (process net m links name clean fmt fs).1 q = fs q)
    ∧ (links = [] →
        download_all_segments net m links fs = .ok ⟨[], [], fs, 0⟩) := by
  have main : (∃ e, (process net m links name clean fmt fs).2 = Except.error e)
      ∧ (∀ q, (∀ j ∈ links, q ≠ segPath j.1) →
          (process net m links name clean fmt fs).1 q = fs q) := ?_
  · exact ⟨main.1, main.2, fun hl => by subst hl; rfl⟩
  by_cases hcond : fmt ≠ "ts" ∧ fmt ≠ "mp4"
  · rw [process, processSched, if_pos hcond]
    exact ⟨⟨.valueError, rfl⟩, fun q _ => rfl⟩
  · rw [process, processSched, if_neg hcond]
    dsimp only
    cases hs : sort_links links with
    | error e =>
      rw [downloadAllSched, hs]
      exact ⟨⟨e, rfl⟩, fun q _ => rfl⟩
    | ok jobs =>
      rw [downloadAllSched_ok net m links (sortLinksList links) fs jobs hs]
      dsimp only
      have hjobs : jobs = sortLinksList links := sort_links_ok_inv hs
      have hperm : List.Perm jobs links := hjobs ▸ pySorted_perm keyIntLe links
      have hempty : jobs.filterMap
          (fun j => if jobSuccess (net j.2) m then some (segPath j.1) else none)
          = [] := by
        rw [List.filterMap_eq_nil_iff]
        intro j hj
        rw [hfail j (hperm.mem_iff.mp hj)]
        rfl
      rw [hempty]
      refine ⟨⟨.runtimeError, rfl⟩, fun q hq => ?_⟩
      exact runJobsFS_other net m (sortLinksList links) fs q
        (fun j hj => hq j (hperm.mem_iff.mp (hjobs ▸ hj)))

/-- C7 (witness): with one always-failing job the run errors and the
(previously absent) output file is still absent; the empty manifest issues
zero fetch attempts. -/
theorem claim_C7_witness :
    (process (fun _ _ => AttemptResult.failEarly) 0 [("0", "u")] "out.ts" true
        "ts" (fun _ => none)).1 "out.ts" = (fun _ => none : FS) "out.ts"
    ∧ download_all_segments (fun _ _ => AttemptResult.failEarly) 0 []
        (fun _ => none) = .ok ⟨[], [], fun _ => none, 0⟩ :=
  ⟨(claim_C7_zero_success_fatal (fun _ _ => AttemptResult.failEarly) 0
      [("0", "u")] "out.ts" true "ts" (fun _ => none)
      (fun _ _ => rfl)).2.1 "out.ts" (by decide),
   (claim_C7_zero_success_fatal (fun _ _ => AttemptResult.failEarly) 0 []
      "out.ts" true "ts" (fun _ => none) (fun _ h => absurd h (List.not_mem_nil _))).2.2
      rfl⟩

/-! ### Order-theoretic facts about the lexicographic path comparison -/

theorem char_lt_trichotomy (a b : Char) (h : a ≠ b) : a < b ∨ b < a := by
  rcases Nat.lt_trichotomy a.toNat b.toNat with h' | h' | h'
  · exact Or.inl ((char_lt_iff_toNat a b).mpr h')
  · exact absurd (char_toNat_inj a b h') h
  · exact Or.inr ((char_lt_iff_toNat b a).mpr h')

theorem lexLe_total : ∀ x y : List Char, lexLe x y = true ∨ lexLe y x = true
  | [], _ => Or.inl rfl
  | _ :: _, [] => Or.inr rfl
  | a :: as, b :: bs => by
    by_cases hab : a = b
    · subst hab
      rcases lexLe_total as bs with h | h
      · exact Or.inl (by simp [lexLe, h])
      · exact Or.inr (by simp [lexLe, h])
    · have hba : ¬ b = a := fun he => hab he.symm
      rcases char_lt_trichotomy a b hab with h | h
      · exact Or.inl (by simp [lexLe, hab, h])
      · exact Or.inr (by simp [lexLe, hba, h])

theorem lexLe_antisymm :
    ∀ x y : List Char, lexLe x y = true → lexLe y x = true → x = y
  | [], [], _, _ => rfl
  | [], _ :: _, _, h => by cases h
  | _ :: _, [], h, _ => by cases h
  | a :: as, b :: bs, h1, h2 => by
    by_cases hab : a = b
    · subst hab
      rw [show lexLe (a :: as) (a :: bs) = lexLe as bs by simp [lexLe]] at h1
      rw [show lexLe (a :: bs) (a :: as) = lexLe bs as by simp [lexLe]] at h2
      rw [lexLe_antisymm as bs h1 h2]
    · have hba : ¬ b = a := fun he => hab he.symm
      rw [show lexLe (a :: as) (b :: bs) = decide (a < b) by simp [lexLe, hab]] at h1
      rw [show lexLe (b :: bs) (a :: as) = decide (b < a) by simp [lexLe, hba]] at h2
      exact absurd (of_decide_eq_true h2) (Char.lt_asymm (of_decide_eq_true h1))

theorem lexLe_trans :
    ∀ x y z : List Char, lexLe x y = true → lexLe y z = true → lexLe x z = true
  | [], _, _, _, _ => rfl
  | _ :: _, [], _, h, _ => by cases h
  | _ :: _, _ :: _, [], _, h => by cases h
  | a :: as, b :: bs, c :: cs, h1, h2 => by
    by_cases hab : a = b <;> by_cases hbc : b = c
    · subst hab
      subst hbc
      rw [show lexLe (a :: as) (a :: bs) = lexLe as bs by simp [lexLe]] at h1
      rw [show lexLe (a :: bs) (a :: cs) = lexLe bs cs by simp [lexLe]] at h2
      simpa [lexLe] using lexLe_trans as bs cs h1 h2
    · subst hab
      rw [show lexLe (a :: bs) (c :: cs) = decide (a < c) by simp [lexLe, hbc]] at h2
      simpa [lexLe, hbc] using h2
    · subst hbc
      rw [show lexLe (a :: as) (b :: bs) = decide (a < b) by simp [lexLe, hab]] at h1
      simpa [lexLe, hab] using h1
    · rw [show lexLe (a :: as) (b :: bs) = decide (a < b) by simp [lexLe, hab]] at h1
      rw [show lexLe (b :: bs) (c :: cs) = decide (b < c) by simp [lexLe, hbc]] at h2
      have hac : a < c := Char.lt_trans (of_decide_eq_true h1) (of_decide_eq_true h2)
      have hane : a ≠ c := fun he => by
        subst he
        exact absurd (of_decide_eq_true h2) (Char.lt_asymm (of_decide_eq_true h1))
      simp [lexLe, hane, hac]

theorem strLe_total (s t : String) : strLe s t || strLe t s := by
  rcases lexLe_total s.data t.data with h | h <;> simp [strLe, h]

theorem strLe_trans (s t u : String) : strLe s t → strLe t u → strLe s u :=
  fun h1 h2 => lexLe_trans s.data t.data u.data h1 h2

theorem strLe_antisymm (s t : String) (h1 : strLe s t = true)
    (h2 : strLe t s = true) : s = t :=
  String.ext (lexLe_antisymm s.data t.data h1 h2)

theorem keyIntLe_total (a b : String × String) : keyIntLe a b || keyIntLe b a := by
  rw [keyIntLe, keyIntLe]
  rcases Int.le_total (keyInt a.1) (keyInt b.1) with h | h <;> simp [h]

theorem keyIntLe_trans (a b c : String × String) :
    keyIntLe a b → keyIntLe b c → keyIntLe a c := by
  intro h1 h2
  rw [keyIntLe] at h1 h2 ⊢
  exact decide_eq_true
    (Int.le_trans (of_decide_eq_true h1) (of_decide_eq_true h2))

/-- C2 (counterexample): with segment indices 9999 and 10000 (contents
`[2]` and `[1]` respectively), `combine_segments` writes index 10000's bytes
FIRST — `sorted` compares the path strings lexicographically and
`"segment_10000.ts" < "segment_9999.ts"` — so the output `[1] ++ [2]` is not
the ascending-numeric-index concatenation `[2] ++ [1]`: the sort is not a
numeric comparison. -/
theorem claim_C2_counterexample :
    (combine_segments
        (fun q => if q = segPath "9999" then some [2]
          else if q = segPath "10000" then some [1] else none)
        [segPath "9999", segPath "10000"] "out.ts").1 "out.ts"
      = some ([1] ++ [2])
    ∧ ([1] ++ [2] : Bytes) ≠ [2] ++ [1] := by
  refine ⟨by decide, by decide⟩

/-- C2 (amended): `combine_segments` re-sorts its input by LEXICOGRAPHIC
comparison of the path strings, so its output is invariant under permutation
of the caller-provided list; because the generated filenames zero-pad the
index to 4 digits, this lexicographic order coincides with the numeric index
order exactly for digit-string keys of at most 4 characters (hence index 2
is placed before index 10), and can diverge beyond that. -/
theorem claim_C2_lexicographic_path_sort (fs : FS) (out : String)
    (l l' : List String) (hp : List.Perm l l') (a b : String)
    (ha : a.data.all isDigitChar = true) (hb : b.data.all isDigitChar = true)
    (hla : a.data.length ≤ 4) (hlb : b.data.length ≤ 4) :
    combine_segments fs l out = combine_segments fs l' out
    ∧ (strLe (segPath a) (segPath b) = true
        ↔ digitsVal a.data ≤ digitsVal b.data) := by
  constructor
  · rw [combine_segments, combine_segments,
      pySorted_congr_perm strLe strLe_total strLe_trans strLe_antisymm hp]
  · constructor
    · intro h
      by_contra hlt
      have hba : digitsVal b.data ≤ digitsVal a.data := by omega
      have h2 := segPath_le_of_val_le b a hb ha hlb hla hba
      have heq := strLe_antisymm _ _ h h2
      have := segPath_inj_val a b ha hb heq
      omega
    · exact segPath_le_of_val_le a b ha hb hla hlb

/-- C2 (witness): the spec's own scenario — indices `"2"` and `"10"` — at
concrete inputs: permutation invariance and 2-before-10. -/
theorem claim_C2_witness :
    combine_segments (fun _ => none) [segPath "10", segPath "2"] "out.ts"
      = combine_segments (fun _ => none) [segPath "2", segPath "10"] "out.ts"
    ∧ (strLe (segPath "2") (segPath "10") = true
        ↔ digitsVal "2".data ≤ digitsVal "10".data) :=
  claim_C2_lexicographic_path_sort (fun _ => none) "out.ts" _ _
    (List.Perm.swap (segPath "2") (segPath "10") [])
    "2" "10" (by decide) (by decide) (by decide) (by decide)

/-! ### Additional helpers for the end-to-end artifact theorem -/

theorem filterMap_if_eq_filter_map (f : α → β) (g : α → Bool) :
    ∀ l : List α,
      l.filterMap (fun x => if g x then some (f x) else none)
        = (l.filter g).map f
  | [] => rfl
  | x :: xs => by
    cases hx : g x <;>
      simp [List.filterMap_cons, List.filter_cons, hx,
        filterMap_if_eq_filter_map f g xs]

theorem nodup_map_pairwise {g : α → β} {l : List α} (h : (l.map g).Nodup) :
    l.Pairwise (fun a b => g a ≠ g b) :=
  List.pairwise_map.mp h

theorem pairwise_map_nodup {g : α → β} {l : List α}
    (h : l.Pairwise (fun a b => g a ≠ g b)) : (l.map g).Nodup :=
  List.pairwise_map.mpr h

/-- C1 (counterexample): a full `process` run over the manifest
`{"9999": u1, "10000": u2}` (both succeed; segment 9999's content is `[2]`,
segment 10000's is `[1]`) produces the artifact `[1] ++ [2]`: segment 10000
comes FIRST, so the artifact is not the concatenation in ascending numeric
index order (`[2] ++ [1]`) — the claim fails for 5-digit indices because the
assembler sorts the 4-digit-zero-padded path strings lexicographically. -/
theorem claim_C1_counterexample :
    (process (fun u _ => if u = "u1" then AttemptResult.ok [2] else AttemptResult.ok [1])
        0 [("9999", "u1"), ("10000", "u2")] "out.ts" true "ts"
        (fun _ => none)).1 "out.ts"
      = some ([1] ++ [2])
    ∧ ([1] ++ [2] : Bytes) ≠ [2] ++ [1] := by
  refine ⟨by decide, by decide⟩

/-- C1 (amended): for every manifest whose keys are nonempty digit strings
of at most 4 characters with pairwise-distinct numeric values (the range in
which the 4-wide zero padding keeps lexicographic path order equal to
numeric order), whenever at least one segment succeeds, `process` returns
the artifact path and the artifact's bytes are exactly the concatenation of
the successful segments' downloaded contents in ascending numeric
segment-index order — independent of the completion order `sched` of the
downloads; the successful subset is exactly the set of successful manifest
entries and its numeric keys are strictly ascending.  (Beyond 4 digits the
property fails — see the counterexample.) -/
theorem claim_C1_artifact_ordered_concat (net : String → Nat → AttemptResult)
    (m : Nat) (links : Manifest) (sched : List (String × String))
    (name : String) (clean : Bool) (fmt : String) (fs : FS)
    (hdigit : ∀ j ∈ links,
      j.1.data ≠ [] ∧ j.1.data.all isDigitChar = true ∧ j.1.data.length ≤ 4)
    (hnodup : (links.map (fun j => digitsVal j.1.data)).Nodup)
    (hsched : List.Perm sched (sortLinksList links))
    (hfmt : fmt = "ts" ∨ fmt = "mp4")
    (hout : ∀ j ∈ links, fixOutputFilename name fmt ≠ segPath j.1)
    (hsucc : ∃ j, j ∈ links ∧ jobSuccess (net j.2) m = true) :
    (processSched net m links sched name clean fmt fs).2
        = .ok (fixOutputFilename name fmt)
    ∧ (processSched net m links sched name clean fmt fs).1
          (fixOutputFilename name fmt)
        = some ((successfulJobs net m links).map
            (fun j => (firstOk (net j.2) m).getD [])).flatten
    ∧ List.Perm (successfulJobs net m links)
        (links.filter (fun j => jobSuccess (net j.2) m))
    ∧ ((successfulJobs net m links).map (fun j => digitsVal j.1.data)).Pairwise
        (fun x y => x < y) := by
  have hjobsperm : List.Perm (sortLinksList links) links :=
    pySorted_perm keyIntLe links
  have hschedlinks : List.Perm sched links := hsched.trans hjobsperm
  -- every key parses, so sort_links succeeds
  have hall : links.all (fun j => (pyIntParse j.1).isSome) = true := by
    rw [List.all_eq_true]
    intro j hj
    rcases hdigit j hj with ⟨hne, hd, _⟩
    rw [pyIntParse_digits j.1 hne hd]
    rfl
  have hs := sort_links_ok links hall
  have hcond : ¬ (fmt ≠ "ts" ∧ fmt ≠ "mp4") := by
    rcases hfmt with h | h <;> simp [h]
  -- the successful-file list in normal form
  have hfiles : (sortLinksList links).filterMap
      (fun j => if jobSuccess (net j.2) m then some (segPath j.1) else none)
      = (successfulJobs net m links).map (fun j => segPath j.1) := by
    rw [successfulJobs]
    exact filterMap_if_eq_filter_map _ _ _
  -- it is nonempty
  have hsuccmem : ∃ j, j ∈ successfulJobs net m links := by
    rcases hsucc with ⟨j, hj, hjs⟩
    exact ⟨j, List.mem_filter.mpr ⟨hjobsperm.mem_iff.mpr hj, hjs⟩⟩
  have hmapne : (successfulJobs net m links).map (fun j => segPath j.1) ≠ [] := by
    rcases hsuccmem with ⟨j, hj⟩
    intro h
    rw [List.map_eq_nil_iff] at h
    rw [h] at hj
    exact List.not_mem_nil j hj
  -- the destination paths used by the schedule are pairwise distinct
  have hdigitsched : ∀ j ∈ sched, j.1.data.all isDigitChar = true :=
    fun j hj => (hdigit j (hschedlinks.mem_iff.mp hj)).2.1
  have hvalssched : (sched.map (fun j => digitsVal j.1.data)).Nodup :=
    (List.Perm.nodup_iff (hschedlinks.map (fun j => digitsVal j.1.data))).mpr hnodup
  have hpathsnodup :
      (sched.map (fun j : String × String => segPath j.1)).Nodup := by
    apply pairwise_map_nodup
    have hpw := List.Pairwise.and_mem.mp (nodup_map_pairwise hvalssched)
    refine hpw.imp ?_
    rintro a b ⟨hal, hbl, hvne⟩
    intro hpe
    exact hvne (segPath_inj_val a.1 b.1 (hdigitsched a hal) (hdigitsched b hbl) hpe)
  -- final content of each successful job's destination file
  have hcontent : ∀ j ∈ successfulJobs net m links,
      runJobsFS net m sched fs (segPath j.1)
        = some ((firstOk (net j.2) m).getD []) := by
    intro j hj
    have hjl : j ∈ sortLinksList links := (List.mem_filter.mp hj).1
    have hjsucc : jobSuccess (net j.2) m = true := (List.mem_filter.mp hj).2
    have hjsched : j ∈ sched := hsched.mem_iff.mpr hjl
    obtain ⟨k, u⟩ := j
    rw [runJobsFS_lookup net m sched fs k u hjsched hpathsnodup]
    have hsome : (firstOk (net u) m).isSome = true := hjsucc
    have heff : jobEffect (net u) m = firstOk (net u) m := by
      rw [jobEffect, firstOk]
      exact jobEffectAux_of_success _ _ _ hsome
    rcases Option.isSome_iff_exists.mp hsome with ⟨b, hb⟩
    rw [heff, hb]
    simp [applyEffect, FS.update_self]
  -- every successful file exists and is distinct from the output path
  have hfilesok : ∀ f ∈ (successfulJobs net m links).map (fun j => segPath j.1),
      f ≠ fixOutputFilename name fmt ∧ (runJobsFS net m sched fs f).isSome := by
    intro f hf
    rcases List.mem_map.mp hf with ⟨j, hj, hfj⟩
    subst hfj
    constructor
    · have hjl : j ∈ links := hjobsperm.mem_iff.mp (List.mem_filter.mp hj).1
      exact fun he => hout j hjl he.symm
    · rw [hcontent j hj]
      rfl
  -- the successful jobs are sorted by numeric key, hence their paths by strLe
  have hsuccpw : (successfulJobs net m links).Pairwise
      (fun a b => keyIntLe a b = true) :=
    (pySorted_pairwise keyIntLe keyIntLe_total keyIntLe_trans links).filter _
  have hmemdigit : ∀ j ∈ successfulJobs net m links,
      j.1.data ≠ [] ∧ j.1.data.all isDigitChar = true ∧ j.1.data.length ≤ 4 :=
    fun j hj => hdigit j (hjobsperm.mem_iff.mp (List.mem_filter.mp hj).1)
  have hvalsle : (successfulJobs net m links).Pairwise
      (fun a b => digitsVal a.1.data ≤ digitsVal b.1.data) := by
    refine (List.Pairwise.and_mem.mp hsuccpw).imp ?_
    rintro a b ⟨hal, hbl, hk⟩
    rcases hmemdigit a hal with ⟨hane, had, _⟩
    rcases hmemdigit b hbl with ⟨hbne, hbd, _⟩
    have hle := of_decide_eq_true hk
    rw [keyInt_digits a.1 hane had, keyInt_digits b.1 hbne hbd] at hle
    exact_mod_cast hle
  have hsorted : ((successfulJobs net m links).map
      (fun j => segPath j.1)).Pairwise (fun x y => strLe x y = true) := by
    refine List.pairwise_map.mpr ((List.Pairwise.and_mem.mp hvalsle).imp ?_)
    rintro a b ⟨hal, hbl, hvle⟩
    rcases hmemdigit a hal with ⟨_, had, hla⟩
    rcases hmemdigit b hbl with ⟨_, hbd, hlb⟩
    exact segPath_le_of_val_le a.1 b.1 had hbd hla hlb hvle
  -- reduce the whole pipeline
  have hcombine : combine_segments (runJobsFS net m sched fs)
      ((successfulJobs net m links).map (fun j => segPath j.1))
      (fixOutputFilename name fmt)
      = (FS.update (runJobsFS net m sched fs) (fixOutputFilename name fmt)
          ((successfulJobs net m links).map
            (fun j => (firstOk (net j.2) m).getD [])).flatten, none) := by
    rw [combine_segments, pySorted_of_pairwise strLe _ hsorted]
    rw [combineLoop_all_present (fixOutputFilename name fmt)
      (runJobsFS net m sched fs)
      ((successfulJobs net m links).map (fun j => segPath j.1)) [] hfilesok]
    rw [List.nil_append, List.map_map]
    have hmc : ((successfulJobs net m links).map
        ((fun f => (runJobsFS net m sched fs f).getD []) ∘ (fun j => segPath j.1)))
        = (successfulJobs net m links).map (fun j => (firstOk (net j.2) m).getD []) := by
      apply List.map_congr_left
      intro j hj
      simp only [Function.comp]
      rw [hcontent j hj]
      rfl
    rw [hmc]
  have hproc : processSched net m links sched name clean fmt fs
      = (if clean then
          cleanup_temp_files
            (FS.update (runJobsFS net m sched fs) (fixOutputFilename name fmt)
              ((successfulJobs net m links).map
                (fun j => (firstOk (net j.2) m).getD [])).flatten)
            ((successfulJobs net m links).map (fun j => segPath j.1))
         else
          FS.update (runJobsFS net m sched fs) (fixOutputFilename name fmt)
            ((successfulJobs net m links).map
              (fun j => (firstOk (net j.2) m).getD [])).flatten,
         .ok (fixOutputFilename name fmt)) := by
    rw [processSched, if_neg hcond,
      downloadAllSched_ok net m links sched fs (sortLinksList links) hs]
    dsimp only
    rw [hfiles]
    rw [if_neg (show ¬ ((successfulJobs net m links).map
      (fun j => segPath j.1)).isEmpty = true from
        fun h => hmapne (List.isEmpty_iff.mp h))]
    rw [hcombine]
    cases clean <;> rfl
  refine ⟨?_, ?_, ?_, ?_⟩
  · rw [hproc]
  · rw [hproc]
    cases clean
    · simp only [Bool.false_eq_true, if_false]
      rw [FS.update_self]
    · simp only [if_true]
      rw [cleanup_temp_files_other _ _ _ ?_]
      · rw [FS.update_self]
      · intro hmem
        exact (hfilesok _ hmem).1 rfl
  · exact (pySorted_perm keyIntLe links).filter _
  · have hvalsne : (successfulJobs net m links).Pairwise
        (fun a b => digitsVal a.1.data ≠ digitsVal b.1.data) := by
      apply nodup_map_pairwise
      have hsub : List.Sublist (successfulJobs net m links) (sortLinksList links) :=
        List.filter_sublist _
      have hmapsub := hsub.map (fun j : String × String => digitsVal j.1.data)
      have hnodup2 : ((sortLinksList links).map
          (fun j => digitsVal j.1.data)).Nodup :=
        (List.Perm.nodup_iff (hjobsperm.map (fun j => digitsVal j.1.data))).mpr hnodup
      exact hnodup2.sublist hmapsub
    refine List.pairwise_map.mpr ((hvalsle.and hvalsne).imp ?_)
    rintro a b ⟨h1, h2⟩
    omega

/-- C1 (witness): the spec's scenario manifest `{"0": u0, "1": u1}`, both
succeeding, at concrete inputs. -/
theorem claim_C1_witness :
    (processSched
        (fun u _ => if u = "u0" then AttemptResult.ok [5] else AttemptResult.ok [6])
        0 [("0", "u0"), ("1", "u1")]
        (sortLinksList [("0", "u0"), ("1", "u1")]) "out" true "ts"
        (fun _ => none)).2
      = .ok (fixOutputFilename "out" "ts")
    ∧ (processSched
        (fun u _ => if u = "u0" then AttemptResult.ok [5] else AttemptResult.ok [6])
        0 [("0", "u0"), ("1", "u1")]
        (sortLinksList [("0", "u0"), ("1", "u1")]) "out" true "ts"
        (fun _ => none)).1 (fixOutputFilename "out" "ts")
      = some ((successfulJobs
          (fun u _ => if u = "u0" then AttemptResult.ok [5] else AttemptResult.ok [6])
          0 [("0", "u0"), ("1", "u1")]).map
            (fun j => (firstOk
              ((fun u _ => if u = "u0" then AttemptResult.ok [5]
                else AttemptResult.ok [6]) j.2) 0).getD [])).flatten
    ∧ List.Perm (successfulJobs
        (fun u _ => if u = "u0" then AttemptResult.ok [5] else AttemptResult.ok [6])
        0 [("0", "u0"), ("1", "u1")])
        ([("0", "u0"), ("1", "u1")].filter
          (fun j => jobSuccess
            ((fun u _ => if u = "u0" then AttemptResult.ok [5]
              else AttemptResult.ok [6]) j.2) 0))
    ∧ ((successfulJobs
        (fun u _ => if u = "u0" then AttemptResult.ok [5] else AttemptResult.ok [6])
        0 [("0", "u0"), ("1", "u1")]).map
          (fun j => digitsVal j.1.data)).Pairwise (fun x y => x < y) :=
  claim_C1_artifact_ordered_concat
    (fun u _ => if u = "u0" then AttemptResult.ok [5] else AttemptResult.ok [6])
    0 [("0", "u0"), ("1", "u1")] (sortLinksList [("0", "u0"), ("1", "u1")])
    "out" true "ts" (fun _ => none)
    (by decide) (by decide) (List.Perm.refl _) (Or.inl rfl) (by decide)
    ⟨("0", "u0"), by decide, rfl⟩
